import Mathlib

/-!
Verification of the execution-gateway core of the go_playGround_plus
repository: the bounded-streaming executor, the SHA-256-keyed result
cache, the token-bucket rate limiter, the textual import safety filter,
the configuration loader, and the HTTP gateway prefix.

Bytes are modelled as `Char` (all the relevant byte strings are ASCII),
byte sequences as `List Char`, wall-clock instants as `ℚ` seconds (or
`Nat` where only differences are compared), and Go's `float64` token
arithmetic exactly over `ℚ`.  Go maps are modelled as association lists
whose order is the (unspecified) iteration order of the map.
-/

namespace PlayGround

/-! ## Association-list model of Go maps -/

/-- Lookup in an association list, mirroring Go map indexing. -/
def mapLookup {α : Type} : List (String × α) → String → Option α
  | [], _ => none
  | (k, v) :: rest, key => if k = key then some v else mapLookup rest key

/-- Go map assignment `m[key] = v`: replace the binding if the key is
present, otherwise add it. -/
def mapSet {α : Type} : List (String × α) → String → α → List (String × α)
  | [], key, v => [(key, v)]
  | (k, w) :: rest, key, v =>
    if k = key then (key, v) :: rest else (k, w) :: mapSet rest key v

/-- Go map deletion `delete(m, key)`. -/
def mapErase {α : Type} : List (String × α) → String → List (String × α)
  | [], _ => []
  | (k, w) :: rest, key =>
    if k = key then rest else (k, w) :: mapErase rest key

theorem mapLookup_mapSet_self {α : Type} (m : List (String × α)) (key : String) (v : α) :
    mapLookup (mapSet m key v) key = some v := by
  induction m with
  | nil => simp [mapSet, mapLookup]
  | cons kv rest ih =>
    obtain ⟨k, w⟩ := kv
    by_cases hk : k = key
    · simp [mapSet, hk, mapLookup]
    · simp [mapSet, hk, mapLookup, ih]

theorem mapLookup_mapSet_ne {α : Type} (m : List (String × α)) (key key' : String) (v : α)
    (h : key ≠ key') : mapLookup (mapSet m key v) key' = mapLookup m key' := by
  induction m with
  | nil => simp [mapSet, mapLookup, h]
  | cons kv rest ih =>
    obtain ⟨k, w⟩ := kv
    by_cases hk : k = key
    · subst hk
      simp [mapSet, mapLookup, h, ih]
    · simp [mapSet, hk, mapLookup, ih]

/-! ## The streaming bounded executor (`GoExecutor.Execute`, executor package)

The subprocess run is modelled by an environment record holding the
outcome of each effectful step: temp-file creation and write, pipe
setup, process start, the sequence of successful pipe reads (each one
`n > 0` bytes), the way the read loop ends (`none` models `io.EOF`, a
message models a non-EOF read error), and the result of `cmd.Wait()`.
The output writer is an arbitrary function whose results the source
discards (`output.Write(...)` with both return values dropped). -/

/-- The literal truncation marker appended by the executor
(`fmt.Fprint(output, "\n... (output truncated)")`). -/
def truncationMarker : List Char := "\n... (output truncated)".data

theorem truncationMarker_length : truncationMarker.length = 23 := by decide

/-- One complete run of the executor's read loop
(source lines 259–282 of the executor file): starting from
`totalBytes = total`, process the chunks in order; a chunk that would
push `totalBytes` beyond `maxLen` is cut to the allowed prefix, the
truncation marker is appended and reading stops.  Returns the bytes
handed to the writer and whether truncation occurred (`break` before
the reads were exhausted). -/
def runStream (maxLen : Nat) : Nat → List (List Char) → List Char × Bool
  | _, [] => ([], false)
  | total, c :: rest =>
    if 0 < c.length then
      if maxLen < total + c.length then
        (c.take (maxLen - total) ++ truncationMarker, true)
      else
        let r := runStream maxLen (total + c.length) rest
        (c ++ r.1, r.2)
    else runStream maxLen total rest

/-- Environment of one `GoExecutor.Execute` call: outcome of each
effectful step.  `reads` are the successful pipe reads in order;
`readEndErr = none` models the loop ending in `io.EOF`, `some e` a
non-EOF read error; `waitErr` is the error of `cmd.Wait()`. -/
structure ExecEnv where
  tmpCreateErr : Option String
  tmpWriteErr : Option String
  pipeErr : Option String
  startErr : Option String
  reads : List (List Char)
  readEndErr : Option String
  waitErr : Option String
deriving DecidableEq

/-- `GoExecutor.Execute` (executor file, lines 211–290): returns the
bytes handed to `output` and the returned error.  The writer `w` is
called on the streamed bytes and its result is discarded, exactly as
the source drops the results of `output.Write` and `fmt.Fprint`. -/
def goExecute (maxLen : Nat) (env : ExecEnv)
    (w : List Char → Nat × Option String) : List Char × Option String :=
  match env.tmpCreateErr with
  | some e => ([], some ("error creando archivo temporal: " ++ e))
  | none =>
  match env.tmpWriteErr with
  | some e => ([], some ("error escribiendo código: " ++ e))
  | none =>
  match env.pipeErr with
  | some e => ([], some ("error obteniendo salida del comando: " ++ e))
  | none =>
  match env.startErr with
  | some e => ([], some ("error iniciando el comando: " ++ e))
  | none =>
    let r := runStream maxLen 0 env.reads
    let _ := w r.1
    if r.2 then
      match env.waitErr with
      | some e => (r.1, some ("error en la ejecución: " ++ e))
      | none => (r.1, none)
    else
      match env.readEndErr with
      | some e => (r.1, some ("error leyendo salida: " ++ e))
      | none =>
        match env.waitErr with
        | some e => (r.1, some ("error en la ejecución: " ++ e))
        | none => (r.1, none)

theorem runStream_length_le (maxLen : Nat) (chunks : List (List Char)) :
    ∀ total, total ≤ maxLen →
      (runStream maxLen total chunks).1.length ≤ (maxLen - total) + 23 := by
  induction chunks with
  | nil => intro total _; simp [runStream]
  | cons c rest ih =>
    intro total htot
    by_cases hc : 0 < c.length
    · by_cases hover : maxLen < total + c.length
      · simp only [runStream, if_pos hc, if_pos hover]
        have : (c.take (maxLen - total)).length ≤ maxLen - total := by
          simp [List.length_take]
        calc (c.take (maxLen - total) ++ truncationMarker).length
            = (c.take (maxLen - total)).length + truncationMarker.length := by
              simp
          _ ≤ (maxLen - total) + 23 := by
              rw [truncationMarker_length]; omega
      · simp only [runStream, if_pos hc, if_neg hover]
        have hle : total + c.length ≤ maxLen := by omega
        have := ih (total + c.length) hle
        simp only [List.length_append]
        omega
    · simp only [runStream, if_neg hc]
      exact ih total htot

theorem runStream_overflow (maxLen : Nat) (chunks : List (List Char)) :
    ∀ total, total ≤ maxLen → maxLen < total + chunks.flatten.length →
      (runStream maxLen total chunks).1
        = chunks.flatten.take (maxLen - total) ++ truncationMarker := by
  induction chunks with
  | nil => intro total htot hov; simp at hov; omega
  | cons c rest ih =>
    intro total htot hov
    by_cases hc : 0 < c.length
    · by_cases hover : maxLen < total + c.length
      · simp only [runStream, if_pos hc, if_pos hover, List.flatten_cons]
        have hle : maxLen - total ≤ c.length := by omega
        rw [List.take_append_eq_append_take]
        have : (maxLen - total) - c.length = 0 := by omega
        rw [this]
        simp
      · simp only [runStream, if_pos hc, if_neg hover, List.flatten_cons]
        have hle : total + c.length ≤ maxLen := by omega
        have hov' : maxLen < (total + c.length) + rest.flatten.length := by
          simp [List.length_append] at hov ⊢
          omega
        rw [ih (total + c.length) hle hov']
        rw [List.take_append_eq_append_take]
        have hcle : c.length ≤ maxLen - total := by omega
        rw [List.take_of_length_le hcle]
        have : maxLen - total - c.length = maxLen - (total + c.length) := by omega
        rw [this, List.append_assoc]
    · simp only [runStream, if_neg hc]
      have hc0 : c.length = 0 := by omega
      have hcnil : c = [] := List.length_eq_zero.mp hc0
      subst hcnil
      have hov' : maxLen < total + rest.flatten.length := by simpa using hov
      rw [ih total htot hov']
      simp

theorem runStream_cases (maxLen : Nat) (chunks : List (List Char)) :
    ∀ total, total ≤ maxLen →
      ((runStream maxLen total chunks).2 = false →
        (runStream maxLen total chunks).1.length ≤ maxLen - total) ∧
      ((runStream maxLen total chunks).2 = true →
        ∃ pre, (runStream maxLen total chunks).1 = pre ++ truncationMarker ∧
          pre.length ≤ maxLen - total) := by
  induction chunks with
  | nil => intro total _; simp [runStream]
  | cons c rest ih =>
    intro total htot
    by_cases hc : 0 < c.length
    · by_cases hover : maxLen < total + c.length
      · simp only [runStream, if_pos hc, if_pos hover]
        refine ⟨by simp, fun _ => ⟨c.take (maxLen - total), rfl, ?_⟩⟩
        simp [List.length_take]
      · simp only [runStream, if_pos hc, if_neg hover]
        have hle : total + c.length ≤ maxLen := by omega
        obtain ⟨h1, h2⟩ := ih (total + c.length) hle
        constructor
        · intro hfalse
          have := h1 hfalse
          simp only [List.length_append]
          omega
        · intro htrue
          obtain ⟨pre, hpre, hlen⟩ := h2 htrue
          exact ⟨c ++ pre, by rw [hpre, List.append_assoc], by
            simp only [List.length_append]; omega⟩
    · simp only [runStream, if_neg hc]
      exact ih total htot



theorem goExecute_fst (maxLen : Nat) (reads : List (List Char)) (re we : Option String)
    (w : List Char → Nat × Option String) :
    (goExecute maxLen ⟨none, none, none, none, reads, re, we⟩ w).1
      = (runStream maxLen 0 reads).1 := by
  simp only [goExecute]
  cases hr : (runStream maxLen 0 reads).2 <;> cases re <;> cases we <;> simp [hr]

/-- C1: the executor hands the writer at most `MaxOutputLength` bytes of
child output; the full write (child output plus possible truncation
marker) is at most `MaxOutputLength + 24` bytes; and whenever the child
produces more than `MaxOutputLength` bytes, the writer receives exactly
the `MaxOutputLength`-byte prefix followed by the literal marker
`"\n... (output truncated)"`, reading stopping there. -/
theorem executor_output_bound (maxLen : Nat) (env : ExecEnv)
    (w : List Char → Nat × Option String) :
    (goExecute maxLen env w).1.length ≤ maxLen + 24 ∧
    (∃ pre : List Char, pre.length ≤ maxLen ∧
      ((goExecute maxLen env w).1 = pre ∨
       (goExecute maxLen env w).1 = pre ++ truncationMarker)) ∧
    (env.tmpCreateErr = none → env.tmpWriteErr = none → env.pipeErr = none →
     env.startErr = none → maxLen < env.reads.flatten.length →
      (goExecute maxLen env w).1 = env.reads.flatten.take maxLen ++ truncationMarker) := by
  obtain ⟨t1, t2, p, s, reads, re, we⟩ := env
  cases t1 with
  | some e =>
    exact ⟨by simp [goExecute], ⟨[], by simp, Or.inl (by simp [goExecute])⟩,
      fun h => by cases h⟩
  | none =>
  cases t2 with
  | some e =>
    exact ⟨by simp [goExecute], ⟨[], by simp, Or.inl (by simp [goExecute])⟩,
      fun _ h => by cases h⟩
  | none =>
  cases p with
  | some e =>
    exact ⟨by simp [goExecute], ⟨[], by simp, Or.inl (by simp [goExecute])⟩,
      fun _ _ h => by cases h⟩
  | none =>
  cases s with
  | some e =>
    exact ⟨by simp [goExecute], ⟨[], by simp, Or.inl (by simp [goExecute])⟩,
      fun _ _ _ h => by cases h⟩
  | none =>
    rw [goExecute_fst]
    refine ⟨?_, ?_, ?_⟩
    · have := runStream_length_le maxLen reads 0 (Nat.zero_le _)
      omega
    · obtain ⟨h1, h2⟩ := runStream_cases maxLen reads 0 (Nat.zero_le _)
      cases hr : (runStream maxLen 0 reads).2 with
      | false =>
        refine ⟨(runStream maxLen 0 reads).1, ?_, Or.inl rfl⟩
        have := h1 hr
        omega
      | true =>
        obtain ⟨pre, hpre, hlen⟩ := h2 hr
        exact ⟨pre, by omega, Or.inr hpre⟩
    · intro _ _ _ _ hov
      have := runStream_overflow maxLen reads 0 (Nat.zero_le _) (by simpa using hov)
      simpa using this

theorem executor_output_bound_witness :
    (goExecute 2 ⟨none, none, none, none, [['a', 'b', 'c', 'd']], none, none⟩
        (fun _ => (0, none))).1 = ['a', 'b'] ++ truncationMarker := by
  have h := (executor_output_bound 2
      ⟨none, none, none, none, [['a', 'b', 'c', 'd']], none, none⟩
      (fun _ => (0, none))).2.2 rfl rfl rfl rfl (by decide)
  exact h.trans (by decide)

/-- C10: `GoExecutor.Execute` discards the result of every write to the
supplied output writer — the whole observable result (bytes attempted
and returned error) is identical for any two writer behaviours — and
the returned error, when present, is one of the six structured messages
built from temp-file creation or write, pipe setup, process start, a
non-EOF pipe read error, or the child's exit status. -/
theorem executor_discards_write_results (maxLen : Nat) (env : ExecEnv)
    (w1 w2 : List Char → Nat × Option String) :
    goExecute maxLen env w1 = goExecute maxLen env w2 ∧
    ((goExecute maxLen env w1).2 = none ∨
     ∃ e : String,
       (goExecute maxLen env w1).2 = some ("error creando archivo temporal: " ++ e) ∨
       (goExecute maxLen env w1).2 = some ("error escribiendo código: " ++ e) ∨
       (goExecute maxLen env w1).2 = some ("error obteniendo salida del comando: " ++ e) ∨
       (goExecute maxLen env w1).2 = some ("error iniciando el comando: " ++ e) ∨
       (goExecute maxLen env w1).2 = some ("error leyendo salida: " ++ e) ∨
       (goExecute maxLen env w1).2 = some ("error en la ejecución: " ++ e)) := by
  refine ⟨rfl, ?_⟩
  obtain ⟨t1, t2, p, s, reads, re, we⟩ := env
  cases t1 with
  | some e => exact Or.inr ⟨e, Or.inl (by simp [goExecute])⟩
  | none =>
  cases t2 with
  | some e => exact Or.inr ⟨e, Or.inr (Or.inl (by simp [goExecute]))⟩
  | none =>
  cases p with
  | some e => exact Or.inr ⟨e, Or.inr (Or.inr (Or.inl (by simp [goExecute])))⟩
  | none =>
  cases s with
  | some e => exact Or.inr ⟨e, Or.inr (Or.inr (Or.inr (Or.inl (by simp [goExecute]))))⟩
  | none =>
    simp only [goExecute]
    cases hr : (runStream maxLen 0 reads).2 with
    | true =>
      cases we with
      | some e =>
        exact Or.inr ⟨e, Or.inr (Or.inr (Or.inr (Or.inr (Or.inr (by simp [hr])))))⟩
      | none => exact Or.inl (by simp [hr])
    | false =>
      cases re with
      | some e =>
        exact Or.inr ⟨e, Or.inr (Or.inr (Or.inr (Or.inr (Or.inl (by simp [hr])))))⟩
      | none =>
        cases we with
        | some e =>
          exact Or.inr ⟨e, Or.inr (Or.inr (Or.inr (Or.inr (Or.inr (by simp [hr])))))⟩
        | none => exact Or.inl (by simp [hr])

/-! ## The result cache (`CachedExecutor`, cached_executor.go)

`CachedExecutor.Execute` is modelled as a pure step on the cache map.
The SHA-256 hex key (`hashCode`) is modelled by an arbitrary
deterministic function `hash : String → String`: the only property the
claims use is that identical source yields an identical key.  Instants
are `Nat`s; `time.Since x ≤ ttl` becomes `now - x ≤ ttl`.  The wrapped
executor's behaviour on a miss is an `InnerResult`: the bytes it pushed
through the `io.MultiWriter` (hence both to the caller's writer and to
the capturing buffer) and its returned error.  The asynchronous
`updateCacheStats` goroutine of a hit is modelled as having completed
before the state is observed again; the caller-supplied writer is
modelled as an infallible sink (the hit path simply returns its error,
which is `nil` for such a writer). -/

/-- A cache entry (cached_executor.go lines 36–40). -/
structure CacheEntry where
  result : List Char
  lastAccess : Nat
  accessCount : Nat
deriving DecidableEq

/-- What the wrapped executor did on a miss: the bytes it wrote through
the tee writer, and its returned error. -/
structure InnerResult where
  written : List Char
  error : Option String
deriving DecidableEq

/-- `updateCacheStats` (cached_executor.go lines 171–179). -/
def updateCacheStats (cache : List (String × CacheEntry)) (codeHash : String)
    (now : Nat) : List (String × CacheEntry) :=
  match mapLookup cache codeHash with
  | some entry =>
    mapSet cache codeHash
      { entry with lastAccess := now, accessCount := entry.accessCount + 1 }
  | none => cache

/-- `evictLeastRecentlyUsed` (cached_executor.go lines 184–207): start
from the first element in iteration order, scan for a strictly older
`lastAccess`, delete the oldest key when it is nonempty. -/
def evictLeastRecentlyUsed (cache : List (String × CacheEntry)) :
    List (String × CacheEntry) :=
  match cache with
  | [] => cache
  | first :: _ =>
    let oldest := cache.foldl
      (fun acc kv => if kv.2.lastAccess < acc.2.lastAccess then kv else acc) first
    if oldest.1 = "" then cache else mapErase cache oldest.1

/-- The miss path of `CachedExecutor.Execute` (cached_executor.go lines
125–155): run the wrapped executor through the tee writer; on error
return it with the cache untouched; on success evict when the map is at
`maxCacheSize` and store the captured bytes. -/
def cachedMiss (maxCacheSize : Nat) (cache : List (String × CacheEntry))
    (now : Nat) (codeHash : String) (inner : InnerResult) :
    List (String × CacheEntry) × List Char × Option String × Bool :=
  match inner.error with
  | some e => (cache, inner.written, some e, true)
  | none =>
    let cache1 :=
      if maxCacheSize ≤ cache.length then evictLeastRecentlyUsed cache else cache
    (mapSet cache1 codeHash ⟨inner.written, now, 1⟩, inner.written, none, true)

/-- `CachedExecutor.Execute` (cached_executor.go lines 101–158).
Returns the new cache map, the bytes written to the caller's writer,
the returned error, and whether the wrapped executor was invoked. -/
def cachedExecute (hash : String → String) (ttl maxCacheSize : Nat)
    (cache : List (String × CacheEntry)) (now : Nat) (code : String)
    (inner : InnerResult) :
    List (String × CacheEntry) × List Char × Option String × Bool :=
  let codeHash := hash code
  match mapLookup cache codeHash with
  | some entry =>
    if now - entry.lastAccess ≤ ttl then
      (updateCacheStats cache codeHash now, entry.result, none, false)
    else
      cachedMiss maxCacheSize cache now codeHash inner
  | none => cachedMiss maxCacheSize cache now codeHash inner

theorem mapLookup_updateCacheStats_self (cache : List (String × CacheEntry))
    (codeHash : String) (now : Nat) (entry : CacheEntry)
    (h : mapLookup cache codeHash = some entry) :
    mapLookup (updateCacheStats cache codeHash now) codeHash
      = some { entry with lastAccess := now, accessCount := entry.accessCount + 1 } := by
  simp only [updateCacheStats, h]
  exact mapLookup_mapSet_self cache codeHash _

/-- C2: if an `Execute` call for source `S` succeeds after writing bytes
`B`, the cache afterwards holds an entry with result `B` under the key
of `S`; and any call for `S` against a cache whose entry for `S` holds
`B`, looked up within TTL of that entry's last access, writes exactly
`B`, returns no error, and does not invoke the wrapped executor. -/
theorem cache_determinism (hash : String → String) (ttl m : Nat)
    (cache : List (String × CacheEntry)) (now : Nat) (S : String)
    (inner : InnerResult) (st1 : List (String × CacheEntry)) (B : List Char)
    (inv : Bool)
    (h1 : cachedExecute hash ttl m cache now S inner = (st1, B, none, inv)) :
    (∃ e : CacheEntry, mapLookup st1 (hash S) = some e ∧ e.result = B) ∧
    (∀ (st2 : List (String × CacheEntry)) (now2 : Nat) (e2 : CacheEntry)
        (inner2 : InnerResult),
      mapLookup st2 (hash S) = some e2 → e2.result = B →
      now2 - e2.lastAccess ≤ ttl →
      cachedExecute hash ttl m st2 now2 S inner2
        = (updateCacheStats st2 (hash S) now2, B, none, false)) := by
  constructor
  · rw [cachedExecute.eq_def] at h1
    rcases hlook : mapLookup cache (hash S) with _ | entry
    · simp only [hlook] at h1
      rw [cachedMiss.eq_def] at h1
      rcases herr : inner.error with _ | e
      · simp only [herr, Prod.mk.injEq] at h1
        obtain ⟨hst, hB, -, -⟩ := h1
        refine ⟨⟨inner.written, now, 1⟩, ?_, hB⟩
        rw [← hst]
        exact mapLookup_mapSet_self _ _ _
      · simp [herr] at h1
    · simp only [hlook] at h1
      by_cases hfresh : now - entry.lastAccess ≤ ttl
      · rw [if_pos hfresh] at h1
        simp only [Prod.mk.injEq] at h1
        obtain ⟨hst, hB, -, -⟩ := h1
        have hl := mapLookup_updateCacheStats_self cache (hash S) now entry hlook
        rw [hst] at hl
        exact ⟨_, hl, hB⟩
      · rw [if_neg hfresh] at h1
        rw [cachedMiss.eq_def] at h1
        rcases herr : inner.error with _ | e
        · simp only [herr, Prod.mk.injEq] at h1
          obtain ⟨hst, hB, -, -⟩ := h1
          refine ⟨⟨inner.written, now, 1⟩, ?_, hB⟩
          rw [← hst]
          exact mapLookup_mapSet_self _ _ _
        · simp [herr] at h1
  · intro st2 now2 e2 inner2 hlook hres hfresh
    rw [cachedExecute.eq_def]
    simp only [hlook, if_pos hfresh, hres]

theorem cache_determinism_witness :
    cachedExecute (fun s => s) 10 5 [("x", ⟨['a'], 0, 1⟩)] 7 "x" ⟨['b'], none⟩
      = (updateCacheStats [("x", ⟨['a'], 0, 1⟩)] "x" 7, ['a'], none, false) := by
  have h := (cache_determinism (fun s => s) 10 5 [] 0 "x" ⟨['a'], none⟩
      [("x", ⟨['a'], 0, 1⟩)] ['a'] true (by decide)).2
      [("x", ⟨['a'], 0, 1⟩)] 7 ⟨['a'], 0, 1⟩ ⟨['b'], none⟩ (by decide) rfl (by decide)
  exact h

/-- C5 counterexample: with `maxCacheSize = 0` an `Execute` call on the
empty cache still stores a cache entry — the cache is not disabled. -/
theorem cache_size_zero_counterexample :
    (cachedExecute (fun s => s) 10 0 [] 0 "x" ⟨['a'], none⟩).1 ≠ [] := by decide

/-- C5 amended: with `maxCacheSize = 0` every miss still delegates and
then stores an entry (after first evicting the least-recently-used one,
since `len(cache) ≥ 0` always holds), and an immediately following call
with the same source within TTL is served from the cache without
invoking the wrapped executor. -/
theorem cache_size_zero_amended (hash : String → String) (ttl : Nat)
    (cache : List (String × CacheEntry)) (now : Nat) (S : String)
    (inner : InnerResult)
    (hmiss : mapLookup cache (hash S) = none) (hok : inner.error = none) :
    cachedExecute hash ttl 0 cache now S inner
      = (mapSet (evictLeastRecentlyUsed cache) (hash S) ⟨inner.written, now, 1⟩,
         inner.written, none, true) ∧
    (∀ (now2 : Nat) (inner2 : InnerResult), now2 - now ≤ ttl →
      cachedExecute hash ttl 0
          (mapSet (evictLeastRecentlyUsed cache) (hash S) ⟨inner.written, now, 1⟩)
          now2 S inner2
        = (updateCacheStats
            (mapSet (evictLeastRecentlyUsed cache) (hash S) ⟨inner.written, now, 1⟩)
            (hash S) now2,
           inner.written, none, false)) := by
  constructor
  · rw [cachedExecute.eq_def]
    simp only [hmiss]
    rw [cachedMiss.eq_def]
    simp [hok]
  · intro now2 inner2 hfresh
    rw [cachedExecute.eq_def]
    have hlook : mapLookup
        (mapSet (evictLeastRecentlyUsed cache) (hash S) ⟨inner.written, now, 1⟩)
        (hash S) = some ⟨inner.written, now, 1⟩ :=
      mapLookup_mapSet_self _ _ _
    simp only [hlook, if_pos hfresh]

theorem cache_size_zero_amended_witness :
    cachedExecute (fun s => s) 10 0 [] 0 "x" ⟨['a'], none⟩
      = (mapSet (evictLeastRecentlyUsed []) "x" ⟨['a'], 0, 1⟩, ['a'], none, true) :=
  (cache_size_zero_amended (fun s => s) 10 [] 0 "x" ⟨['a'], none⟩ rfl rfl).1

/-- C7: when the lookup misses (no entry, or only an expired entry) and
the wrapped executor returns an error, `Execute` forwards the bytes the
inner run produced, returns that same error, and leaves the cache map
unchanged — nothing inserted, nothing evicted. -/
theorem cache_untouched_on_failure (hash : String → String) (ttl m : Nat)
    (cache : List (String × CacheEntry)) (now : Nat) (S : String)
    (inner : InnerResult) (e : String)
    (herr : inner.error = some e)
    (hmiss : ∀ ent : CacheEntry, mapLookup cache (hash S) = some ent →
      ttl < now - ent.lastAccess) :
    cachedExecute hash ttl m cache now S inner
      = (cache, inner.written, some e, true) := by
  rw [cachedExecute.eq_def]
  rcases hlook : mapLookup cache (hash S) with _ | ent
  · simp only [hlook]
    rw [cachedMiss.eq_def]
    simp [herr]
  · have hexp := hmiss ent hlook
    simp only [hlook]
    rw [if_neg (by omega : ¬ now - ent.lastAccess ≤ ttl)]
    rw [cachedMiss.eq_def]
    simp [herr]

theorem cache_untouched_on_failure_witness :
    cachedExecute (fun s => s) 10 5 [("y", ⟨['z'], 0, 1⟩)] 0 "x" ⟨['p'], some "boom"⟩
      = ([("y", ⟨['z'], 0, 1⟩)], ['p'], some "boom", true) :=
  cache_untouched_on_failure (fun s => s) 10 5 [("y", ⟨['z'], 0, 1⟩)] 0 "x"
    ⟨['p'], some "boom"⟩ "boom" rfl (fun ent h => by cases h)


/-! ## The token-bucket rate limiter (`RateLimiter.IsAllowed`, limiter package)

Go's `float64` token arithmetic is modelled exactly over `ℚ`; the
counterexamples below use only values (halves and quarters at small
magnitudes) at which `float64` arithmetic is itself exact.  Instants
are `ℚ` seconds; `time.Time.Sub(...).Seconds()` becomes subtraction. -/

/-- A per-client token bucket (limiter file, lines 14–19). -/
structure TokenBucket where
  tokens : ℚ
  capacity : ℚ
  refillRate : ℚ
  lastRefillTime : ℚ
deriving DecidableEq

/-- The limiter state (limiter file, lines 22–27). -/
structure RateLimiter where
  buckets : List (String × TokenBucket)
  capacity : ℚ
  refillRate : ℚ
deriving DecidableEq

/-- `NewRateLimiter` (limiter file, lines 30–41). -/
def NewRateLimiter (maxRequestsPerMin : Int) : RateLimiter :=
  ⟨[], (maxRequestsPerMin : ℚ), (maxRequestsPerMin : ℚ) / 60⟩

/-- The refill step of `IsAllowed` (limiter file, lines 64–77): add
`elapsed × refillRate` tokens, cap at capacity, stamp `lastRefillTime`. -/
def refillBucket (b : TokenBucket) (now : ℚ) : TokenBucket :=
  let t := b.tokens + (now - b.lastRefillTime) * b.refillRate
  let t2 := if b.capacity < t then b.capacity else t
  ⟨t2, b.capacity, b.refillRate, now⟩

/-- `RateLimiter.IsAllowed` (limiter file, lines 44–87).  For a fresh
client a full bucket is created and `true` is returned with no
decrement; for an existing bucket the refill-adjusted, capacity-capped
count is decremented by one exactly when it is at least `1`. -/
def isAllowed (rl : RateLimiter) (now : ℚ) (ip : String) : Bool × RateLimiter :=
  match mapLookup rl.buckets ip with
  | none =>
    (true,
     ⟨mapSet rl.buckets ip ⟨rl.capacity, rl.capacity, rl.refillRate, now⟩,
      rl.capacity, rl.refillRate⟩)
  | some bucket =>
    let b1 := refillBucket bucket now
    if 1 ≤ b1.tokens then
      (true, ⟨mapSet rl.buckets ip ⟨b1.tokens - 1, b1.capacity, b1.refillRate, b1.lastRefillTime⟩,
              rl.capacity, rl.refillRate⟩)
    else
      (false, ⟨mapSet rl.buckets ip b1, rl.capacity, rl.refillRate⟩)

/-- The effect of one `IsAllowed` call on the caller's own bucket. -/
def stepBucket (cap rate : ℚ) (st : Option TokenBucket) (now : ℚ) : Bool × TokenBucket :=
  match st with
  | none => (true, ⟨cap, cap, rate, now⟩)
  | some bucket =>
    let b1 := refillBucket bucket now
    if 1 ≤ b1.tokens then
      (true, ⟨b1.tokens - 1, b1.capacity, b1.refillRate, b1.lastRefillTime⟩)
    else (false, b1)

/-- A sequence of `IsAllowed` calls for one client at the given instants. -/
def runCalls : RateLimiter → String → List ℚ → List Bool × RateLimiter
  | rl, _, [] => ([], rl)
  | rl, ip, t :: ts =>
    let r := isAllowed rl t ip
    let rest := runCalls r.2 ip ts
    (r.1 :: rest.1, rest.2)

/-- The same sequence viewed through the client's bucket alone,
counting admissions. -/
def runBucket (cap rate : ℚ) : Option TokenBucket → List ℚ → Nat
  | _, [] => 0
  | st, t :: ts =>
    let r := stepBucket cap rate st t
    (if r.1 then 1 else 0) + runBucket cap rate (some r.2) ts

theorem runBucket_none_cons (cap rate : ℚ) (t : ℚ) (ts : List ℚ) :
    runBucket cap rate none (t :: ts)
      = 1 + runBucket cap rate (some ⟨cap, cap, rate, t⟩) ts := by
  simp [runBucket, stepBucket]

theorem runBucket_cons_pos (cap rate : ℚ) (b : TokenBucket) (t : ℚ) (ts : List ℚ)
    (h1 : 1 ≤ (refillBucket b t).tokens) :
    runBucket cap rate (some b) (t :: ts)
      = 1 + runBucket cap rate
          (some ⟨(refillBucket b t).tokens - 1, (refillBucket b t).capacity,
                 (refillBucket b t).refillRate, (refillBucket b t).lastRefillTime⟩) ts := by
  simp [runBucket, stepBucket, h1]

theorem runBucket_cons_neg (cap rate : ℚ) (b : TokenBucket) (t : ℚ) (ts : List ℚ)
    (h1 : ¬ 1 ≤ (refillBucket b t).tokens) :
    runBucket cap rate (some b) (t :: ts)
      = runBucket cap rate (some (refillBucket b t)) ts := by
  simp [runBucket, stepBucket, h1]

theorem isAllowed_eq_stepBucket (rl : RateLimiter) (now : ℚ) (ip : String) :
    isAllowed rl now ip
      = ((stepBucket rl.capacity rl.refillRate (mapLookup rl.buckets ip) now).1,
         ⟨mapSet rl.buckets ip
            (stepBucket rl.capacity rl.refillRate (mapLookup rl.buckets ip) now).2,
          rl.capacity, rl.refillRate⟩) := by
  rcases hlook : mapLookup rl.buckets ip with _ | bucket
  · simp [isAllowed, stepBucket, hlook]
  · simp only [isAllowed, stepBucket, hlook]
    by_cases h1 : 1 ≤ (refillBucket bucket now).tokens
    · simp [h1]
    · simp [h1]

theorem runCalls_count (ip : String) (ts : List ℚ) :
    ∀ rl : RateLimiter,
      (runCalls rl ip ts).1.count true
        = runBucket rl.capacity rl.refillRate (mapLookup rl.buckets ip) ts := by
  induction ts with
  | nil => intro rl; simp [runCalls, runBucket]
  | cons t ts ih =>
    intro rl
    rw [runCalls.eq_def, runBucket.eq_def]
    simp only
    rw [isAllowed_eq_stepBucket]
    simp only [List.count_cons, ih, mapLookup_mapSet_self]
    cases (stepBucket rl.capacity rl.refillRate (mapLookup rl.buckets ip) t).1 <;>
      simp [Nat.add_comm]

theorem refillBucket_tokens_le (b : TokenBucket) (now : ℚ) :
    (refillBucket b now).tokens ≤ b.tokens + (now - b.lastRefillTime) * b.refillRate := by
  simp only [refillBucket]
  split
  · next h => linarith
  · linarith

theorem refillBucket_tokens_le_capacity (b : TokenBucket) (now : ℚ) :
    (refillBucket b now).tokens ≤ b.capacity := by
  simp only [refillBucket]
  split
  · linarith
  · next h => linarith [not_lt.mp h]

theorem refillBucket_tokens_nonneg (b : TokenBucket) (now : ℚ)
    (h0 : 0 ≤ b.tokens) (hd : b.lastRefillTime ≤ now)
    (hr : 0 ≤ b.refillRate) (hc : 0 ≤ b.capacity) :
    0 ≤ (refillBucket b now).tokens := by
  simp only [refillBucket]
  split
  · exact hc
  · have : 0 ≤ (now - b.lastRefillTime) * b.refillRate :=
      mul_nonneg (by linarith) hr
    linarith

theorem stepBucket_some_pos (cap rate : ℚ) (b : TokenBucket) (now : ℚ)
    (h1 : 1 ≤ (refillBucket b now).tokens) :
    stepBucket cap rate (some b) now
      = (true, ⟨(refillBucket b now).tokens - 1, (refillBucket b now).capacity,
                (refillBucket b now).refillRate, (refillBucket b now).lastRefillTime⟩) := by
  simp [stepBucket, h1]

theorem stepBucket_some_neg (cap rate : ℚ) (b : TokenBucket) (now : ℚ)
    (h1 : ¬ 1 ≤ (refillBucket b now).tokens) :
    stepBucket cap rate (some b) now = (false, refillBucket b now) := by
  simp [stepBucket, h1]

theorem runBucket_le (cap rate : ℚ) (hrate : 0 ≤ rate) (hcap : 0 ≤ cap)
    (ts : List ℚ) :
    ∀ (b : TokenBucket) (U : ℚ),
      b.capacity = cap → b.refillRate = rate → 0 ≤ b.tokens →
      List.Chain' (· ≤ ·) (b.lastRefillTime :: ts) →
      (∀ t ∈ ts, t ≤ U) → b.lastRefillTime ≤ U →
      (runBucket cap rate (some b) ts : ℚ) ≤ b.tokens + rate * (U - b.lastRefillTime) := by
  induction ts with
  | nil =>
    intro b U _ _ hbt _ _ hlU
    simp only [runBucket, Nat.cast_zero]
    have : 0 ≤ rate * (U - b.lastRefillTime) := mul_nonneg hrate (by linarith)
    linarith
  | cons t ts ih =>
    intro b U hbc hbr hbt hchain hmem hlU
    have hd : b.lastRefillTime ≤ t := (List.chain'_cons.mp hchain).1
    have htU : t ≤ U := hmem t (by simp)
    have hchain' : List.Chain' (· ≤ ·) (t :: ts) := (List.chain'_cons.mp hchain).2
    have hmem' : ∀ x ∈ ts, x ≤ U := fun x hx => hmem x (by simp [hx])
    have hup : (refillBucket b t).tokens ≤ b.tokens + (t - b.lastRefillTime) * rate := by
      have := refillBucket_tokens_le b t
      rw [hbr] at this
      exact this
    have hnn : 0 ≤ (refillBucket b t).tokens :=
      refillBucket_tokens_nonneg b t hbt hd (hbr ▸ hrate) (hbc ▸ hcap)
    have hlast : (refillBucket b t).lastRefillTime = t := rfl
    by_cases h1 : 1 ≤ (refillBucket b t).tokens
    · rw [runBucket_cons_pos cap rate b t ts h1, hlast]
      have hrec := ih
        ⟨(refillBucket b t).tokens - 1, (refillBucket b t).capacity,
         (refillBucket b t).refillRate, t⟩ U
        (by simp only [refillBucket]; exact hbc)
        (by simp only [refillBucket]; exact hbr)
        (by simp only; linarith)
        (by simpa using hchain')
        hmem' (by simpa using htU)
      simp only at hrec
      push_cast
      have hkey : (t - b.lastRefillTime) * rate + rate * (U - t)
          = rate * (U - b.lastRefillTime) := by ring
      linarith [hrec, hup, hkey]
    · rw [runBucket_cons_neg cap rate b t ts h1]
      have hrec := ih (refillBucket b t) U
        (by simp only [refillBucket]; exact hbc)
        (by simp only [refillBucket]; exact hbr)
        hnn (by simpa [hlast] using hchain')
        hmem' (by simpa [hlast] using htU)
      rw [hlast] at hrec
      have hkey : (t - b.lastRefillTime) * rate + rate * (U - t)
          = rate * (U - b.lastRefillTime) := by ring
      linarith [hrec, hup, hkey]


theorem runBucket_window_le (cap rate : ℚ) (hrate : 0 ≤ rate) (hcap : 0 ≤ cap)
    (ts : List ℚ) (T W : ℚ) (hW : 0 ≤ W)
    (hchain : List.Chain' (· ≤ ·) ts)
    (hmem : ∀ t ∈ ts, T ≤ t ∧ t ≤ T + W)
    (st : Option TokenBucket)
    (hb : ∀ b : TokenBucket, st = some b →
      0 ≤ b.tokens ∧ b.capacity = cap ∧ b.refillRate = rate ∧ b.lastRefillTime ≤ T) :
    (runBucket cap rate st ts : ℚ) ≤ cap + rate * W + 1 := by
  cases ts with
  | nil =>
    cases st <;> simp [runBucket] <;> nlinarith [mul_nonneg hrate hW]
  | cons t ts =>
    have htT : T ≤ t := (hmem t (by simp)).1
    have htW : t ≤ T + W := (hmem t (by simp)).2
    have hmem' : ∀ x ∈ ts, x ≤ T + W := fun x hx => (hmem x (by simp [hx])).2
    have hWt : rate * (T + W - t) ≤ rate * W := by
      apply mul_le_mul_of_nonneg_left _ hrate
      linarith
    cases st with
    | none =>
      rw [runBucket_none_cons]
      have hrec := runBucket_le cap rate hrate hcap ts ⟨cap, cap, rate, t⟩ (T + W)
        rfl rfl (by simp only; exact hcap) (by simpa using hchain) hmem'
        (by simp only; linarith)
      simp only at hrec
      push_cast
      linarith [hrec, hWt]
    | some b =>
      obtain ⟨hbt, hbc, hbr, hbl⟩ := hb b rfl
      have hd : b.lastRefillTime ≤ t := le_trans hbl htT
      have hcapb : (refillBucket b t).tokens ≤ cap :=
        hbc ▸ refillBucket_tokens_le_capacity b t
      have hnn : 0 ≤ (refillBucket b t).tokens :=
        refillBucket_tokens_nonneg b t hbt hd (hbr ▸ hrate) (hbc ▸ hcap)
      have hlast : (refillBucket b t).lastRefillTime = t := rfl
      by_cases h1 : 1 ≤ (refillBucket b t).tokens
      · rw [runBucket_cons_pos cap rate b t ts h1, hlast]
        have hrec := runBucket_le cap rate hrate hcap ts
          ⟨(refillBucket b t).tokens - 1, (refillBucket b t).capacity,
           (refillBucket b t).refillRate, t⟩ (T + W)
          (by simp only [refillBucket]; exact hbc)
          (by simp only [refillBucket]; exact hbr)
          (by simp only; linarith)
          (by simpa using hchain)
          hmem' (by simp only; linarith)
        simp only at hrec
        push_cast
        linarith [hrec, hWt]
      · rw [runBucket_cons_neg cap rate b t ts h1]
        have hrec := runBucket_le cap rate hrate hcap ts (refillBucket b t) (T + W)
          (by simp only [refillBucket]; exact hbc)
          (by simp only [refillBucket]; exact hbr)
          hnn (by simpa [hlast] using hchain)
          hmem' (by rw [hlast]; linarith)
        rw [hlast] at hrec
        linarith [hrec, hWt]

/-- C3 counterexample: on the first sighting of a client the admitting
call creates a full bucket and consumes nothing — with
`MaxRequestsPerMinute = 30` the bucket holds `30` tokens after the
admitting call, not `capacity − 1 = 29` as the claim requires. -/
theorem admission_decrement_counterexample :
    (isAllowed (NewRateLimiter 30) 0 "c").1 = true ∧
    mapLookup ((isAllowed (NewRateLimiter 30) 0 "c").2).buckets "c"
      = some ⟨30, 30, 1/2, 0⟩ ∧
    (30 : ℚ) ≠ 30 - 1 := by
  refine ⟨?_, ?_, by norm_num⟩
  · norm_num [isAllowed, NewRateLimiter, mapLookup]
  · norm_num [isAllowed, NewRateLimiter, mapLookup, mapSet]

/-- C3 amended: for a call that returns `true` on a client with an
existing bucket, the bucket afterwards holds exactly the
refill-adjusted, capacity-capped token count minus one; on the first
sighting of a client a full bucket is created and the admitting call
returns `true` without consuming a token. -/
theorem admission_decrement_amended (rl : RateLimiter) (now : ℚ) (ip : String) :
    (∀ b : TokenBucket, mapLookup rl.buckets ip = some b →
      (isAllowed rl now ip).1 = true →
      mapLookup ((isAllowed rl now ip).2).buckets ip
        = some ⟨(refillBucket b now).tokens - 1, b.capacity, b.refillRate, now⟩) ∧
    (mapLookup rl.buckets ip = none →
      (isAllowed rl now ip).1 = true ∧
      mapLookup ((isAllowed rl now ip).2).buckets ip
        = some ⟨rl.capacity, rl.capacity, rl.refillRate, now⟩) := by
  constructor
  · intro b hlook htrue
    simp only [isAllowed, hlook] at htrue ⊢
    by_cases h1 : 1 ≤ (refillBucket b now).tokens
    · simp only [if_pos h1]
      exact mapLookup_mapSet_self rl.buckets ip _
    · rw [if_neg h1] at htrue
      simp at htrue
  · intro hlook
    simp only [isAllowed, hlook]
    exact ⟨trivial, mapLookup_mapSet_self rl.buckets ip _⟩

theorem admission_decrement_amended_witness :
    mapLookup ((isAllowed ⟨[("c", ⟨5, 30, 1/2, 0⟩)], 30, 1/2⟩ 2 "c").2).buckets "c"
      = some ⟨5, 30, 1/2, 2⟩ := by
  have h := (admission_decrement_amended ⟨[("c", ⟨5, 30, 1/2, 0⟩)], 30, 1/2⟩ 2 "c").1
      ⟨5, 30, 1/2, 0⟩ (by simp [mapLookup])
      (by norm_num [isAllowed, mapLookup, refillBucket])
  exact h.trans (by norm_num [refillBucket])

/-- The instants of the C4 counterexample trace: with
`MaxRequestsPerMinute = 15` (capacity `15`, refill rate `1/4` per
second, both exactly representable in `float64`), sixteen calls at
`t = 0` followed by one call every four seconds. -/
def burstTimes : List ℚ :=
  [0, 0, 0, 0, 0, 0, 0, 0, 0, 0, 0, 0, 0, 0, 0, 0,
   4, 8, 12, 16, 20, 24, 28, 32, 36, 40, 44, 48, 52, 56, 60]

/-- C4 counterexample: the trace admits `31` requests inside the window
`[0, 60]` of length `W = 60 ≥ 60`, but
`capacity + refillRate × W = 15 + (1/4)·60 = 30 < 31`: the first
sighting is admitted without a decrement, so the claimed bound fails. -/
theorem admission_rate_bound_counterexample :
    (runCalls (NewRateLimiter 15) "c" burstTimes).1.count true = 31 ∧
    (∀ t ∈ burstTimes, 0 ≤ t ∧ t ≤ 0 + 60) ∧
    ¬ ((31 : ℚ) ≤ (NewRateLimiter 15).capacity + (NewRateLimiter 15).refillRate * 60) := by
  refine ⟨?_, ?_, by norm_num [NewRateLimiter]⟩
  · norm_num [burstTimes, runCalls, isAllowed, refillBucket, mapLookup, mapSet,
      NewRateLimiter, List.count_cons]
  · intro t ht
    fin_cases ht <;> norm_num

/-- C4 amended: for any client and any contiguous window of length
`W ≥ 60` containing all of the client's calls (with a monotone clock,
and any bucket left from before the window last refilled no later than
the window start), the number of admitted calls is at most
`capacity + refillRate × W + 1` — one more than the claimed bound,
accounting for the undecremented first-sighting admission. -/
theorem admission_rate_bound_amended (rl : RateLimiter) (ip : String)
    (ts : List ℚ) (T W : ℚ)
    (hW : 60 ≤ W) (hrate : 0 ≤ rl.refillRate) (hcap : 0 ≤ rl.capacity)
    (hchain : List.Chain' (· ≤ ·) ts)
    (hmem : ∀ t ∈ ts, T ≤ t ∧ t ≤ T + W)
    (hb : ∀ b : TokenBucket, mapLookup rl.buckets ip = some b →
      0 ≤ b.tokens ∧ b.capacity = rl.capacity ∧ b.refillRate = rl.refillRate ∧
      b.lastRefillTime ≤ T) :
    ((runCalls rl ip ts).1.count true : ℚ) ≤ rl.capacity + rl.refillRate * W + 1 := by
  rw [runCalls_count]
  exact runBucket_window_le rl.capacity rl.refillRate hrate hcap ts T W
    (by linarith) hchain hmem (mapLookup rl.buckets ip) hb

theorem admission_rate_bound_amended_witness :
    ((runCalls (NewRateLimiter 30) "c" [0, 1]).1.count true : ℚ)
      ≤ (NewRateLimiter 30).capacity + (NewRateLimiter 30).refillRate * 60 + 1 :=
  admission_rate_bound_amended (NewRateLimiter 30) "c" [0, 1] 0 60 (by norm_num)
    (by norm_num [NewRateLimiter]) (by norm_num [NewRateLimiter])
    (by norm_num [List.chain'_cons, List.chain'_singleton])
    (by intro t ht; fin_cases ht <;> norm_num) (fun b h => nomatch h)


/-! ## The import safety filter (`CodeValidator.ContainsBlacklistedImports`)

The Go source matches the pattern `(?m)^\s*import\s*(\((?:[^)]+)\)|"[^"]+")`
with `FindAllStringSubmatch` and post-processes each capture.  The
pattern is deterministic for the Go (leftmost, Perl-style) semantics:
a match can only begin at a line start, the greedy `\s*` runs cannot
backtrack (no whitespace char begins `import`, `(` or `"`), and
`[^)]+` / `[^"]+` extend exactly to the first closing delimiter.  The
scanner below implements precisely this search; every match ends in
`)` or `"`, so the next candidate position is the next line start. -/

/-- RE2's `\s` character class: `[\t\n\f\r ]`. -/
def reSpace (c : Char) : Bool :=
  c = ' ' || c = '\t' || c = '\n' || c = '\x0c' || c = '\r'

/-- The Unicode `White_Space` set used by Go's `unicode.IsSpace`
(the predicate behind `strings.TrimSpace`). -/
def goSpaceChars : List Char :=
  [' ', '\t', '\n', '\x0b', '\x0c', '\r', '\x85', '\xa0', '\u1680',
   '\u2000', '\u2001', '\u2002', '\u2003', '\u2004', '\u2005', '\u2006',
   '\u2007', '\u2008', '\u2009', '\u200a', '\u2028', '\u2029', '\u202f',
   '\u205f', '\u3000']

def goIsSpace (c : Char) : Bool := goSpaceChars.contains c

def startsWith : List Char → List Char → Bool
  | _, [] => true
  | [], _ :: _ => false
  | c :: s, p :: ps => c == p && startsWith s ps

/-- One attempt of the import pattern at a line-start position: skip
the maximal `\s` run, require the literal `import`, skip `\s` again,
then capture either a parenthesised block (through the first `)`) or a
quoted string (through the next `"`).  Returns the group-1 capture and
the remainder of the input after the match. -/
def matchImportAt (s : List Char) : Option (List Char × List Char) :=
  let s1 := s.dropWhile reSpace
  if startsWith s1 "import".data then
    let s2 := (s1.drop 6).dropWhile reSpace
    match s2 with
    | '(' :: rest =>
      let body := rest.takeWhile (fun c => c != ')')
      (match rest.drop body.length with
       | ')' :: tail =>
         if body.length = 0 then none
         else some (('(' :: body) ++ [')'], tail)
       | _ => none)
    | '"' :: rest =>
      let body := rest.takeWhile (fun c => c != '"')
      (match rest.drop body.length with
       | '"' :: tail =>
         if body.length = 0 then none
         else some (('"' :: body) ++ ['"'], tail)
       | _ => none)
    | _ => none
  else none

/-- Advance to the position just after the next newline (the next
candidate line start for the anchored pattern). -/
def dropLine : List Char → List Char
  | [] => []
  | '\n' :: rest => rest
  | _ :: rest => dropLine rest

/-- The successive group-1 captures of `FindAllStringSubmatch`, driven
line start by line start.  `fuel` bounds the recursion and is always
supplied larger than the input length. -/
def scanImports : Nat → List Char → List (List Char)
  | 0, _ => []
  | _ + 1, [] => []
  | fuel + 1, s =>
    match matchImportAt s with
    | some r => r.1 :: scanImports fuel (dropLine r.2)
    | none => scanImports fuel (dropLine s)

def findImportGroups (s : List Char) : List (List Char) :=
  scanImports (s.length + 1) s

/-- The denylist (security file, lines 25–32). -/
def blacklistedImports : List (List Char) :=
  ["os/exec", "syscall", "unsafe", "net", "net/http", "plugin"].map String.data

/-- `strings.ReplaceAll(g, "(", "")` followed by
`strings.ReplaceAll(g, ")", "")`. -/
def removeParens (g : List Char) : List Char :=
  g.filter (fun c => c != '(' && c != ')')

/-- `strings.Split(imp, "//")[0]`: the prefix before the first `//`. -/
def beforeComment : List Char → List Char
  | [] => []
  | '/' :: '/' :: _ => []
  | c :: rest => c :: beforeComment rest

/-- Trim the characters satisfying `p` from both ends. -/
def trimBoth (p : Char → Bool) (s : List Char) : List Char :=
  ((s.dropWhile p).reverse.dropWhile p).reverse

/-- `strings.Split(g, "\n")`. -/
def splitOnNl : List Char → List (List Char)
  | [] => [[]]
  | '\n' :: rest => [] :: splitOnNl rest
  | c :: rest =>
    match splitOnNl rest with
    | [] => [[c]]
    | l :: ls => (c :: l) :: ls

/-- The entries of one capture: parentheses removed, split by line
(security file, lines 46–50). -/
def entryLines (g : List Char) : List (List Char) :=
  splitOnNl (removeParens g)

/-- Strip the inline comment, trim surrounding whitespace, trim
surrounding double quotes (security file, lines 52–53). -/
def cleanEntry (line : List Char) : List Char :=
  trimBoth (fun c => c == '"') (trimBoth goIsSpace (beforeComment line))

/-- First denylist hit inside one capture. -/
def hitOfGroup (g : List Char) : Option (List Char) :=
  (entryLines g).findSome? (fun line =>
    blacklistedImports.find? (fun b => cleanEntry line == b))

/-- First denylist hit over all captures. -/
def blacklistHit (code : List Char) : Option (List Char) :=
  (findImportGroups code).findSome? hitOfGroup

/-- `CodeValidator.ContainsBlacklistedImports` (security file, lines
38–64). -/
def ContainsBlacklistedImports (code : List Char) : Bool × List Char :=
  match blacklistHit code with
  | some b => (true, b)
  | none => (false, [])

/-- The import entries of a source text as the spec words them: every
line of every capture after parenthesis removal. -/
def specImportEntries (code : List Char) : List (List Char) :=
  ((findImportGroups code).map entryLines).flatten

/-- The gateway's inline error body on a safety-filter hit (handlers
file, lines 155–162). -/
def blacklistGateBody (code : List Char) : Option (List Char) :=
  let r := ContainsBlacklistedImports code
  if r.1 then some ("Error: Import prohibido por seguridad: ".data ++ r.2) else none

theorem findSome?_eq_some_exists {α β : Type} (f : α → Option β) :
    ∀ (l : List α) (b : β), l.findSome? f = some b → ∃ x ∈ l, f x = some b := by
  intro l
  induction l with
  | nil => intro b h; simp [List.findSome?] at h
  | cons a l ih =>
    intro b h
    rw [List.findSome?_cons] at h
    cases hf : f a with
    | some c =>
      rw [hf] at h
      simp at h
      exact ⟨a, by simp, by rw [hf, h]⟩
    | none =>
      rw [hf] at h
      simp at h
      obtain ⟨x, hx, hfx⟩ := ih b h
      exact ⟨x, by simp [hx], hfx⟩

theorem findSome?_isSome_of_mem {α β : Type} (f : α → Option β) :
    ∀ (l : List α) (x : α), x ∈ l → (f x).isSome → (l.findSome? f).isSome := by
  intro l
  induction l with
  | nil => intro x hx; simp at hx
  | cons a l ih =>
    intro x hx hfx
    rw [List.findSome?_cons]
    cases hf : f a with
    | some c => simp [hf]
    | none =>
      rcases List.mem_cons.mp hx with rfl | hx'
      · rw [hf] at hfx; simp at hfx
      · exact ih x hx' hfx

theorem blacklistHit_some (code : List Char) (b : List Char)
    (h : blacklistHit code = some b) :
    b ∈ blacklistedImports ∧
    ∃ entry ∈ specImportEntries code, cleanEntry entry = b := by
  obtain ⟨g, hg, hfg⟩ := findSome?_eq_some_exists hitOfGroup (findImportGroups code) b h
  obtain ⟨line, hline, hfind⟩ := findSome?_eq_some_exists _ (entryLines g) b hfg
  have hbmem : b ∈ blacklistedImports := List.mem_of_find?_eq_some hfind
  have hbeq : (cleanEntry line == b) = true := List.find?_some hfind
  refine ⟨hbmem, line, ?_, by simpa using hbeq⟩
  simp only [specImportEntries, List.mem_flatten]
  exact ⟨entryLines g, List.mem_map_of_mem entryLines hg, hline⟩

theorem blacklistHit_isSome (code : List Char) (entry : List Char)
    (hmem : entry ∈ specImportEntries code)
    (hbl : cleanEntry entry ∈ blacklistedImports) :
    (blacklistHit code).isSome := by
  simp only [specImportEntries, List.mem_flatten] at hmem
  obtain ⟨ls, hls, hentry⟩ := hmem
  obtain ⟨g, hg, rfl⟩ := List.mem_map.mp hls
  apply findSome?_isSome_of_mem hitOfGroup (findImportGroups code) g hg
  apply findSome?_isSome_of_mem _ (entryLines g) entry hentry
  rw [Option.isSome_iff_exists]
  have : ∃ x, blacklistedImports.find? (fun b => cleanEntry entry == b) = some x := by
    rw [← Option.isSome_iff_exists, List.find?_isSome]
    exact ⟨cleanEntry entry, hbl, by simp⟩
  obtain ⟨x, hx⟩ := this
  exact ⟨x, hx⟩

/-- C8: the filter returns `true` exactly when some import entry —
a line of a regex capture, after stripping the inline `//` comment,
surrounding whitespace and surrounding double quotes — is byte-equal
to a denylist name; the returned name is the cleaned form of such an
entry and belongs to the denylist
(`os/exec`, `syscall`, `unsafe`, `net`, `net/http`, `plugin`); and on a
hit the gateway's body is exactly
`"Error: Import prohibido por seguridad: <name>"`. -/
theorem blacklist_filter_correct (code : List Char) :
    ((ContainsBlacklistedImports code).1 = true ↔
      ∃ entry ∈ specImportEntries code, cleanEntry entry ∈ blacklistedImports) ∧
    ((ContainsBlacklistedImports code).1 = true →
      (ContainsBlacklistedImports code).2 ∈ blacklistedImports ∧
      ∃ entry ∈ specImportEntries code,
        cleanEntry entry = (ContainsBlacklistedImports code).2) ∧
    (∀ n : List Char, ContainsBlacklistedImports code = (true, n) →
      blacklistGateBody code
        = some ("Error: Import prohibido por seguridad: ".data ++ n)) := by
  refine ⟨⟨?_, ?_⟩, ?_, ?_⟩
  · intro htrue
    rcases hhit : blacklistHit code with _ | b
    · simp [ContainsBlacklistedImports, hhit] at htrue
    · obtain ⟨hbmem, entry, hmem, hclean⟩ := blacklistHit_some code b hhit
      exact ⟨entry, hmem, hclean ▸ hbmem⟩
  · rintro ⟨entry, hmem, hbl⟩
    have := blacklistHit_isSome code entry hmem hbl
    rcases hhit : blacklistHit code with _ | b
    · rw [hhit] at this; simp at this
    · simp [ContainsBlacklistedImports, hhit]
  · intro htrue
    rcases hhit : blacklistHit code with _ | b
    · simp [ContainsBlacklistedImports, hhit] at htrue
    · obtain ⟨hbmem, entry, hmem, hclean⟩ := blacklistHit_some code b hhit
      simp only [ContainsBlacklistedImports, hhit]
      exact ⟨hbmem, entry, hmem, hclean⟩
  · intro n hn
    rcases hhit : blacklistHit code with _ | b
    · simp [ContainsBlacklistedImports, hhit] at hn
    · simp only [ContainsBlacklistedImports, hhit, Prod.mk.injEq] at hn
      simp [blacklistGateBody, ContainsBlacklistedImports, hhit, hn.2]

theorem blacklist_filter_correct_witness :
    blacklistGateBody "package main\nimport \"os/exec\"\nfunc main()\x7b\x7d".data
      = some "Error: Import prohibido por seguridad: os/exec".data := by
  have h := (blacklist_filter_correct
      "package main\nimport \"os/exec\"\nfunc main()\x7b\x7d".data).2.2
      "os/exec".data (by decide)
  exact h.trans (by decide)


/-! ## Configuration (`config.NewConfig` and `validateConfig`)

The process environment is a function `String → Option String`
(`os.LookupEnv`); `os.TempDir()` is the parameter `osTempDir`.  Go's
`time.Duration` is an `int64` of nanoseconds, so the
seconds-to-duration multiplication wraps in two's complement.  The
`TempDir` existence/creation probe is a filesystem effect abstracted by
the flag `tempDirOk`; the Go-binary probe only prints a warning and
changes nothing. -/

def isDigit (c : Char) : Bool := '0' ≤ c && c ≤ '9'

def parseDigitsAux : List Char → Nat → Option Nat
  | [], acc => some acc
  | c :: rest, acc =>
    if isDigit c then parseDigitsAux rest (acc * 10 + (c.toNat - '0'.toNat))
    else none

/-- `strconv.Atoi` (= `ParseInt` base 10, 64-bit): optional sign, at
least one digit, error on any other rune or on int64 overflow. -/
def goAtoi (s : String) : Option Int :=
  let core : List Char → Bool → Option Int := fun ds neg =>
    match ds with
    | [] => none
    | _ =>
      match parseDigitsAux ds 0 with
      | none => none
      | some n =>
        if neg then
          if (n : Int) ≤ 9223372036854775808 then some (-(n : Int)) else none
        else
          if (n : Int) ≤ 9223372036854775807 then some (n : Int) else none
  match s.data with
  | '+' :: ds => core ds false
  | '-' :: ds => core ds true
  | ds => core ds false

/-- Wrap into the int64 range (Go multiplication overflows silently). -/
def wrapInt64 (n : Int) : Int :=
  (n + 9223372036854775808) % 18446744073709551616 - 9223372036854775808

def getEnvString (env : String → Option String) (key defaultValue : String) : String :=
  match env key with
  | some value => if value ≠ "" then value else defaultValue
  | none => defaultValue

def getEnvInt (env : String → Option String) (key : String) (defaultValue : Int) : Int :=
  match env key with
  | some value =>
    if value ≠ "" then
      match goAtoi value with
      | some n => n
      | none => defaultValue
    else defaultValue
  | none => defaultValue

/-- `getEnvBool` (config file, lines 161–167); Go lowercases the whole
value with `strings.ToLower`, modelled per character. -/
def getEnvBool (env : String → Option String) (key : String) (defaultValue : Bool) : Bool :=
  match env key with
  | some value =>
    if value ≠ "" then
      let v := String.map Char.toLower value
      v = "true" || v = "1" || v = "yes" || v = "y"
    else defaultValue
  | none => defaultValue

def getEnvStringSlice (env : String → Option String) (key : String)
    (defaultValue : List String) : List String :=
  match env key with
  | some value => if value ≠ "" then value.splitOn "," else defaultValue
  | none => defaultValue

/-- `config.Config` (config file, lines 31–53); durations in int64
nanoseconds. -/
structure Config where
  Port : String
  Host : String
  DebugMode : Bool
  StaticFilesDir : String
  MaxRequestsPerMinute : Int
  MaxCodeLength : Int
  MaxOutputLength : Int
  ExecutionTimeout : Int
  AllowedOrigins : List String
  GoExecutablePath : String
  TempDir : String
  CleanupInterval : Int
  LogLevel : String
  LogFormat : String
deriving DecidableEq

/-- `validateConfig` (config file, lines 200–232): clamp the three
numeric floors, then fall back to the OS temp dir when the configured
one neither exists nor could be created. -/
def validateConfig (tempDirOk : Bool) (osTempDir : String) (cfg : Config) : Config :=
  let cfg1 := if cfg.MaxRequestsPerMinute < 1 then { cfg with MaxRequestsPerMinute := 1 } else cfg
  let cfg2 := if cfg1.MaxCodeLength < 100 then { cfg1 with MaxCodeLength := 100 } else cfg1
  let cfg3 := if cfg2.ExecutionTimeout < 1000000000 then { cfg2 with ExecutionTimeout := 1000000000 } else cfg2
  if cfg3.TempDir ≠ "" && !tempDirOk then { cfg3 with TempDir := osTempDir } else cfg3

/-- `NewConfig` (config file, lines 75–105). -/
def NewConfig (env : String → Option String) (osTempDir : String) (tempDirOk : Bool) : Config :=
  validateConfig tempDirOk osTempDir
    { Port := getEnvString env "SERVER_PORT" "8080"
      Host := getEnvString env "SERVER_HOST" "0.0.0.0"
      DebugMode := getEnvBool env "DEBUG_MODE" false
      StaticFilesDir := getEnvString env "STATIC_FILES_DIR" "/app/build"
      MaxRequestsPerMinute := getEnvInt env "MAX_REQUESTS_PER_MINUTE" 30
      MaxCodeLength := getEnvInt env "MAX_CODE_LENGTH" 10000
      MaxOutputLength := getEnvInt env "MAX_OUTPUT_LENGTH" 10000
      ExecutionTimeout := wrapInt64 (getEnvInt env "EXECUTION_TIMEOUT_SECONDS" 10 * 1000000000)
      AllowedOrigins := getEnvStringSlice env "ALLOWED_ORIGINS" ["*"]
      GoExecutablePath := getEnvString env "GO_EXECUTABLE_PATH" "/usr/local/go/bin/go"
      TempDir := getEnvString env "TEMP_DIR" osTempDir
      CleanupInterval := wrapInt64 (getEnvInt env "CLEANUP_INTERVAL_MINUTES" 60 * 60000000000)
      LogLevel := getEnvString env "LOG_LEVEL" "info"
      LogFormat := getEnvString env "LOG_FORMAT" "json" }

theorem validateConfig_floors (tempDirOk : Bool) (osTempDir : String) (cfg : Config) :
    1 ≤ (validateConfig tempDirOk osTempDir cfg).MaxRequestsPerMinute ∧
    100 ≤ (validateConfig tempDirOk osTempDir cfg).MaxCodeLength ∧
    1000000000 ≤ (validateConfig tempDirOk osTempDir cfg).ExecutionTimeout := by
  obtain ⟨P, H, D, S, mrpm, mcl, mol, et, ao, gep, td, ci, ll, lf⟩ := cfg
  simp only [validateConfig]
  split_ifs <;> simp_all

/-- C9: for every environment (and every state of the filesystem
probes), the config produced by `NewConfig` satisfies
`MaxRequestsPerMinute ≥ 1`, `MaxCodeLength ≥ 100` and
`ExecutionTimeout ≥ 1` second (`10⁹` ns): below-floor values are
clamped by `validateConfig`. -/
theorem config_floors (env : String → Option String) (osTempDir : String) (tempDirOk : Bool) :
    1 ≤ (NewConfig env osTempDir tempDirOk).MaxRequestsPerMinute ∧
    100 ≤ (NewConfig env osTempDir tempDirOk).MaxCodeLength ∧
    1000000000 ≤ (NewConfig env osTempDir tempDirOk).ExecutionTimeout :=
  validateConfig_floors tempDirOk osTempDir _

/-! ## The gateway prefix: method, admission, media type

`handleGatePrefix` embeds the prefix of server.go's
`handleExecuteCode` (lines 118–137, answering 415 for a bad media type
through its count-based limiter); `apiGatePrefix` embeds the prefix of
`APIHandler.HandleExecuteCode` (handlers file, lines 60–104), wired in
`main` to the token-bucket limiter, whose bad-media-type answer is
`errors.BadRequest`, i.e. HTTP status 400.  In both, rate limiting
runs before the `Content-Type` check. -/

/-- The request data the gateway prefix inspects. -/
structure Request where
  method : String
  contentType : String
  xForwardedFor : String
  xRealIP : String
  remoteAddr : String
deriving DecidableEq

/-- `GetClientIP` (security file, lines 67–77; server.go 105–115). -/
def GetClientIP (r : Request) : String :=
  if r.xForwardedFor ≠ "" then r.xForwardedFor
  else if r.xRealIP ≠ "" then r.xRealIP
  else r.remoteAddr

/-- A per-IP window counter of server.go (lines 38–41). -/
structure IPRequests where
  count : Int
  lastTime : ℚ
deriving DecidableEq

/-- server.go's `RateLimiter.isAllowed` (lines 84–103), with
`maxRequestsPerMinute = 30`. -/
def srvIsAllowed (requests : List (String × IPRequests)) (now : ℚ) (ip : String) :
    Bool × List (String × IPRequests) :=
  match mapLookup requests ip with
  | some req =>
    if 60 < now - req.lastTime then (true, mapSet requests ip ⟨1, now⟩)
    else if req.count < 30 then (true, mapSet requests ip ⟨req.count + 1, req.lastTime⟩)
    else (false, requests)
  | none => (true, mapSet requests ip ⟨1, now⟩)

inductive GateOutcome where
  | methodNotAllowed
  | tooManyRequests
  | unsupportedMediaType
  | proceed
deriving DecidableEq

/-- The prefix of server.go's `handleExecuteCode` (lines 118–137). -/
def handleGatePrefix (requests : List (String × IPRequests)) (now : ℚ) (r : Request) :
    GateOutcome × List (String × IPRequests) :=
  if r.method ≠ "POST" then (.methodNotAllowed, requests)
  else
    let a := srvIsAllowed requests now (GetClientIP r)
    if !a.1 then (.tooManyRequests, a.2)
    else if !(startsWith r.contentType.data "application/json".data) then
      (.unsupportedMediaType, a.2)
    else (.proceed, a.2)

inductive ApiOutcome where
  | httpError : Int → ApiOutcome
  | proceed
deriving DecidableEq

/-- The prefix of `APIHandler.HandleExecuteCode` (handlers file, lines
60–104), over the token-bucket limiter. -/
def apiGatePrefix (rl : RateLimiter) (now : ℚ) (r : Request) :
    ApiOutcome × RateLimiter :=
  if r.method ≠ "POST" then (.httpError 405, rl)
  else
    let a := isAllowed rl now (GetClientIP r)
    if !a.1 then (.httpError 429, a.2)
    else if !(startsWith r.contentType.data "application/json".data) then
      (.httpError 400, a.2)
    else (.proceed, a.2)

/-- C6 counterexample: a `POST` with `Content-Type: text/plain` from a
fresh client is answered 415 by server.go, but the limiter state is
not left unchanged — admission ran first and recorded the request. -/
theorem media_type_admission_counterexample :
    (handleGatePrefix [] 0 ⟨"POST", "text/plain", "", "", "1.2.3.4:5"⟩).1
      = GateOutcome.unsupportedMediaType ∧
    (handleGatePrefix [] 0 ⟨"POST", "text/plain", "", "", "1.2.3.4:5"⟩).2 ≠ [] := by
  constructor
  · simp [handleGatePrefix, srvIsAllowed, GetClientIP, mapLookup, mapSet, startsWith]
  · simp [handleGatePrefix, srvIsAllowed, GetClientIP, mapLookup, mapSet, startsWith]

/-- C6 amended: media-type validation happens after admission, not
before it.  For a `POST` whose `Content-Type` does not begin with
`application/json` and which the limiter admits, server.go responds
415 and the modular handler responds 400 (`errors.BadRequest`), and in
both the limiter is left in the post-admission state: the request
consumed admission (an existing bucket is decremented; a fresh client
gets a new entry). -/
theorem media_type_admission_amended
    (requests : List (String × IPRequests)) (rl : RateLimiter) (now : ℚ) (r : Request)
    (hpost : r.method = "POST")
    (hct : startsWith r.contentType.data "application/json".data = false) :
    ((srvIsAllowed requests now (GetClientIP r)).1 = true →
      handleGatePrefix requests now r
        = (.unsupportedMediaType, (srvIsAllowed requests now (GetClientIP r)).2)) ∧
    ((isAllowed rl now (GetClientIP r)).1 = true →
      apiGatePrefix rl now r
        = (.httpError 400, (isAllowed rl now (GetClientIP r)).2)) := by
  constructor
  · intro ha
    simp [handleGatePrefix, hpost, ha, hct]
  · intro ha
    simp [apiGatePrefix, hpost, ha, hct]

theorem media_type_admission_amended_witness :
    handleGatePrefix [] 0 ⟨"POST", "text/plain", "", "", "1.2.3.4:5"⟩
      = (.unsupportedMediaType,
         (srvIsAllowed [] 0 (GetClientIP ⟨"POST", "text/plain", "", "", "1.2.3.4:5"⟩)).2) :=
  (media_type_admission_amended [] (NewRateLimiter 30) 0
      ⟨"POST", "text/plain", "", "", "1.2.3.4:5"⟩ rfl (by decide)).1
    (by simp [srvIsAllowed, GetClientIP, mapLookup])

end PlayGround
